import Mathlib

/-!
Verification of the soa-derive struct-of-arrays library.

The crate turns a record type into a family of container types storing each
field in its own parallel array.  The concrete per-type containers are emitted
by a derive macro; the crate's library source (soa-derive/src/lib.rs) contains
the generic trait layer with default method bodies (`first`, `last`,
`sort_by`, `sort_by_key`), the sealed list of index argument types, and the
`soa_zip` expansion.  We embed a representative two-field container
(one array per field, mirroring the generated `CheeseVec`-style struct) and
translate each operation either from the library source directly or, where
the operation body is macro-generated, from the specification's contract for
it (such definitions are marked `Modelled from the spec`).
-/

namespace Soa

/-- Model of a generated struct-of-arrays container with two fields.
The derive macro generates one `Vec` per field; we model each `Vec<T>`
as a `List`.  Field names follow the spec's concrete scenario
`(x: float, name: text)`, with both element types generic. -/
structure SoAVec (α β : Type) where
  x : List α
  name : List β
deriving DecidableEq, Repr

variable {α β γ δ : Type}

namespace SoAVec

/-- Modelled from the spec: the generated `len` returns the common length of
the field arrays (read from the first field's array). -/
def len (c : SoAVec α β) : Nat := c.x.length

/-- The parallel-array invariant: every field array has the same length. -/
def sync (c : SoAVec α β) : Prop := c.x.length = c.name.length

instance (c : SoAVec α β) : Decidable c.sync := by
  unfold sync; infer_instance

/-- The record sequence stored by the container, read across the field
arrays (the array-of-structs view of the data). -/
def contents (c : SoAVec α β) : List (α × β) := c.x.zip c.name

/-- Modelled from the spec: the generated bounds-checked `get` for a single
position (`SoAIndex::get` impl for `usize`, macro-generated in index.rs):
returns the proxy record at `i` if in bounds, `None` otherwise.  The proxy is
modelled by the record value its per-field references denote. -/
def get (c : SoAVec α β) (i : Nat) : Option (α × β) :=
  match c.x[i]?, c.name[i]? with
  | some a, some b => some (a, b)
  | _, _ => none

/-- Modelled from the spec: the panicking indexing form (`SoAIndex::index`
impl for `usize`); `Except.error` models the out-of-range panic. -/
def index (c : SoAVec α β) (i : Nat) : Except String (α × β) :=
  match get c i with
  | some r => Except.ok r
  | none => Except.error "index out of bounds"

/-- Total model of the panicking `index()` used inside `sort_by`: the sort
only evaluates it at indices drawn from `0..len`, where it returns the record
at `i`; out of bounds the value is irrelevant (`default` stands in for the
never-observed panic). -/
def proxyAt [Inhabited α] [Inhabited β] (c : SoAVec α β) (i : Nat) : α × β :=
  (c.x.getD i default, c.name.getD i default)

/-- Source `SoASlice::first` / `SoAVec::first` default body: `self.get(0)`. -/
def first (c : SoAVec α β) : Option (α × β) := get c 0

/-- Source `SoASlice::last` / `SoAVec::last` default body:
`self.get(self.len().saturating_sub(1))`; `Nat` subtraction is saturating. -/
def last (c : SoAVec α β) : Option (α × β) := get c (len c - 1)

/-- Modelled from the spec: `push(record)` appends one element to every
field array (macro-generated in vec.rs). -/
def push (r : α × β) (c : SoAVec α β) : SoAVec α β :=
  ⟨c.x ++ [r.1], c.name ++ [r.2]⟩

/-- Modelled from the spec: `pop()` removes and returns the last element as
an owned record, or signals empty when the container has length 0
(macro-generated in vec.rs). -/
def pop (c : SoAVec α β) : Option (α × β) × SoAVec α β :=
  match c.x.getLast?, c.name.getLast? with
  | some a, some b => (some (a, b), ⟨c.x.dropLast, c.name.dropLast⟩)
  | _, _ => (none, c)

/-- Modelled from the spec: `insert(i, record)` is bounds-checked
(fails when `i > len`, mutating nothing) and inserts into every field array
identically (macro-generated in vec.rs). -/
def insert (i : Nat) (r : α × β) (c : SoAVec α β) : SoAVec α β :=
  if i ≤ len c then ⟨c.x.insertIdx i r.1, c.name.insertIdx i r.2⟩ else c

/-- Modelled from the spec: `remove(i)` is bounds-checked (fails when
`i ≥ len`, mutating nothing) and removes position `i` from every field array
with shift semantics, returning the removed record (vec.rs). -/
def remove (i : Nat) (c : SoAVec α β) : Option (α × β) × SoAVec α β :=
  match get c i with
  | some r => (some r, ⟨c.x.eraseIdx i, c.name.eraseIdx i⟩)
  | none => (none, c)

/-- One field array after `swap_remove`: the last element is moved into
slot `i` and the array is shortened by one. -/
def swapRemoveList (l : List γ) (i : Nat) : List γ :=
  match l.getLast? with
  | some a => (l.set i a).dropLast
  | none => l

/-- Modelled from the spec: `swap_remove(i)` is bounds-checked and applies
swap-with-last semantics identically across all fields (vec.rs). -/
def swap_remove (i : Nat) (c : SoAVec α β) : Option (α × β) × SoAVec α β :=
  match get c i with
  | some r => (some r, ⟨swapRemoveList c.x i, swapRemoveList c.name i⟩)
  | none => (none, c)

/-- Modelled from the spec: `truncate(len)` shortens every field array to at
most the requested length (vec.rs). -/
def truncate (n : Nat) (c : SoAVec α β) : SoAVec α β :=
  ⟨c.x.take n, c.name.take n⟩

/-- Modelled from the spec: `clear()` empties every field array (vec.rs). -/
def clear (_c : SoAVec α β) : SoAVec α β := ⟨[], []⟩

/-- Modelled from the spec: `append(other)` moves every element of `other`
onto the end of `self`, field array by field array, leaving `other` empty
(vec.rs).  Returns (self afterwards, other afterwards). -/
def append (c o : SoAVec α β) : SoAVec α β × SoAVec α β :=
  (⟨c.x ++ o.x, c.name ++ o.name⟩, ⟨[], []⟩)

/-- Modelled from the spec: `split_off(at)` is bounds-checked (fails when
`at > len`, mutating nothing) and splits every field array at the same
position; `self` keeps the front, the returned container gets the tail
(vec.rs). -/
def split_off (i : Nat) (c : SoAVec α β) : SoAVec α β × Option (SoAVec α β) :=
  if i ≤ len c then (⟨c.x.take i, c.name.take i⟩, some ⟨c.x.drop i, c.name.drop i⟩)
  else (c, none)

/-- Modelled from the spec: `replace(i, record)` is bounds-checked and
overwrites position `i` in every field array, returning the previous
record (vec.rs). -/
def replace (i : Nat) (r : α × β) (c : SoAVec α β) : Option (α × β) × SoAVec α β :=
  match get c i with
  | some old => (some old, ⟨c.x.set i r.1, c.name.set i r.2⟩)
  | none => (none, c)

/-- Modelled from the spec: `apply_index(indices)` gathers, for every field
array in the same pass, the element at `indices[i]` into position `i`
(the permutation engine; macro-generated in vec.rs/slice.rs via the
permutation crate).  Out-of-range indices contribute nothing, identically in
every field. -/
def apply_index (idx : List Nat) (c : SoAVec α β) : SoAVec α β :=
  ⟨idx.filterMap (fun i => c.x[i]?), idx.filterMap (fun i => c.name[i]?)⟩

/-- The strict predicate that drives Rust's standard stable sort:
`is_less(a, b) = (cmp(a, b) == Less)`. -/
def is_less (cmp : γ → γ → Ordering) (a b : γ) : Bool :=
  cmp a b == Ordering.lt

/-- Boolean form of the comparator acceptance relation that sortedness is
stated with: an element may precede another when the comparator does not
answer `Greater`.  For comparators satisfying Rust's duality contract this
coincides with the merge relation derived from `is_less`. -/
def leOfCmp (cmp : γ → γ → Ordering) (a b : γ) : Bool :=
  match cmp a b with
  | Ordering.gt => false
  | _ => true

/-- The acceptance relation lifted to indices through the proxies. -/
def accLe [Inhabited α] [Inhabited β] (cmp : α × β → α × β → Ordering)
    (c : SoAVec α β) : Nat → Nat → Bool :=
  fun j k => leOfCmp cmp (proxyAt c j) (proxyAt c k)

/-- Source `SoAVec::sort_by` / `SoASliceMut::sort_by` default body: collect
the index sequence `0..len`, sort it stably with the comparator closure
`|j, k| f(self.index(*j), self.index(*k))` evaluated on proxies obtained
through the panicking `index()`, then reorder every field array with one
`apply_index` call.  Rust's `slice::sort_by` is a stable merge sort driven by
`is_less(a, b) = (cmp(a, b) == Less)`: its merge takes the next element from
the left run unless the right head is strictly less, i.e. it orders by
`le(a, b) = not is_less(b, a)`; modelled by `List.mergeSort` with exactly
that relation. -/
def sort_by [Inhabited α] [Inhabited β]
    (cmp : α × β → α × β → Ordering) (c : SoAVec α β) : SoAVec α β :=
  let permutation :=
    (List.range (len c)).mergeSort
      (fun j k => !(is_less cmp (proxyAt c k) (proxyAt c j)))
  apply_index permutation c

/-- Source `SoAVec::sort_by_key` / `SoASliceMut::sort_by_key` default body:
like `sort_by`, with the stable index sort driven by
`is_less(j, k) = (compare (f (index j)) (f (index k)) == Less)` on keys
extracted from proxies obtained through `index()` (Rust's `sort_by_key`
compares keys with `Ord`). -/
def sort_by_key [Inhabited α] [Inhabited β] {κ : Type} [Ord κ]
    (f : α × β → κ) (c : SoAVec α β) : SoAVec α β :=
  let permutation :=
    (List.range (len c)).mergeSort
      (fun j k => !(is_less compare (f (proxyAt c k)) (f (proxyAt c j))))
  apply_index permutation c

/-- One mutating container operation together with its payloads, covering the
operation set named by the parallel-array invariant. -/
inductive Op (α β : Type) where
  | push (r : α × β)
  | pop
  | insert (i : Nat) (r : α × β)
  | remove (i : Nat)
  | swap_remove (i : Nat)
  | truncate (n : Nat)
  | clear
  | append (o : SoAVec α β)
  | split_off (i : Nat)
  | replace (i : Nat) (r : α × β)
  | apply_index (idx : List Nat)
deriving DecidableEq

/-- Effect of one operation on the container it is applied to. -/
def step (c : SoAVec α β) : Op α β → SoAVec α β
  | .push r => push r c
  | .pop => (pop c).2
  | .insert i r => insert i r c
  | .remove i => (remove i c).2
  | .swap_remove i => (swap_remove i c).2
  | .truncate n => truncate n c
  | .clear => clear c
  | .append o => (append c o).1
  | .split_off i => (split_off i c).1
  | .replace i r => (replace i r c).2
  | .apply_index idx => apply_index idx c

/-- Run a sequence of operations left to right. -/
def run (c : SoAVec α β) (ops : List (Op α β)) : SoAVec α β := ops.foldl step c

/-- Payload well-formedness: a container handed to `append` is itself a live
container, hence already satisfies the parallel-array invariant (in Rust this
is guaranteed by the type system). -/
def opSync : Op α β → Prop
  | .append o => o.sync
  | _ => True

instance (o : Op α β) : Decidable (opSync o) := by
  cases o <;> simp only [opSync] <;> infer_instance

/-- Concrete container used by several witnesses. -/
def exVec : SoAVec Bool Bool := ⟨[true, false], [false, true]⟩

/-- Concrete operation sequence exercising every container operation. -/
def exOps : List (Op Bool Bool) :=
  [Op.push (true, true), Op.insert 1 (false, false), Op.pop, Op.swap_remove 0,
   Op.append ⟨[true], [false]⟩, Op.apply_index [1, 0, 0], Op.split_off 1,
   Op.replace 0 (true, false), Op.remove 0, Op.truncate 3, Op.clear]

/-- The empty container. -/
def emptyVec : SoAVec Bool Bool := ⟨[], []⟩

/-- A concrete three-element container. -/
def c4Vec : SoAVec Bool Bool := ⟨[true, false, true], [false, true, true]⟩

/-- A comparator that always answers `Greater`; it does not describe a total
preorder, so Rust's sort contract makes no ordering promise for it. -/
def cmpAlwaysGt : Bool × Bool → Bool × Bool → Ordering := fun _ _ => Ordering.gt

/-- A comparator violating Rust's duality contract: the record with first
field `true` is `Less` than the record with first field `false`, yet in the
opposite orientation the two compare `Equal`. -/
def cmpAsym : Bool × Bool → Bool × Bool → Ordering :=
  fun a b => if a.1 = true ∧ b.1 = false then Ordering.lt else Ordering.eq

/-- Container for the stability counterexample: records `(false, false)`
then `(true, true)`. -/
def c9Vec : SoAVec Bool Bool := ⟨[false, true], [false, true]⟩

/-- A lawful comparator on `Bool × Bool`: compare the first field. -/
def cmpFst : Bool × Bool → Bool × Bool → Ordering := fun a b => compare a.1 b.1

/-- A container with two records whose first fields compare equal. -/
def c9W : SoAVec Bool Bool := ⟨[true, true], [false, true]⟩

/-- Modelled from the spec: the two-phase reference algorithm of §4.7 applied
to the record sequence `l` — compute a permutation of `0..N` by stably
sorting the index list with the comparator evaluated on the records at those
indices (the proxies), using the same `is_less`-driven standard stable sort,
then gather every record in a single application of that permutation. -/
def referenceSortBy [Inhabited γ] (cmp : γ → γ → Ordering) (l : List γ) :
    List γ :=
  let perm := (List.range l.length).mergeSort
    (fun j k => !(is_less cmp (l.getD k default) (l.getD j default)))
  perm.map (fun i => l.getD i default)

/-- Modelled from the spec: the two-phase reference algorithm of §4.7 for
key-based sorting — the index permutation is stably sorted by comparing the
keys of the records at the indices with the same `is_less`-driven standard
stable sort, then applied in one pass. -/
def referenceSortByKey [Inhabited γ] {κ : Type} [Ord κ] (f : γ → κ)
    (l : List γ) : List γ :=
  let perm := (List.range l.length).mergeSort
    (fun j k => !(is_less compare (f (l.getD k default)) (f (l.getD j default))))
  perm.map (fun i => l.getD i default)

/-- Source `soa_zip_impl` expansion of `soa_zip!(&v, [x, name], e)`: zip the
selected field iterators left to right, zip on the external iterator, then
flatten each nested tuple with the generated closure. -/
def soa_zip_x_name_e (c : SoAVec α β) (e : List γ) : List (α × β × γ) :=
  ((c.x.zip c.name).zip e).map (fun p => (p.1.1, p.1.2, p.2))

/-- Source `soa_zip_impl` expansion of `soa_zip!(&v, [x, name], e₁, e₂)`:
fields first in listed order, then the external iterators in the order
given, flattened to one tuple per element. -/
def soa_zip_x_name_ee (c : SoAVec α β) (e₁ : List γ) (e₂ : List δ) :
    List (α × β × γ × δ) :=
  (((c.x.zip c.name).zip e₁).zip e₂).map (fun p => (p.1.1.1, p.1.1.2, p.1.2, p.2))

/-- The sealed set of index argument types accepted by the indexing traits:
one constructor per `impl Sealed for ...` in `private_soa_indexes`
(lib.rs lines 300-306); `SoAIndex`/`SoAIndexMut` require `Sealed`, so these
are exactly the accepted index arguments. -/
inductive IndexArg where
  | position (i : Nat)
  | range (start stop : Nat)
  | rangeTo (stop : Nat)
  | rangeFrom (start : Nat)
  | rangeFull
  | rangeInclusive (start stop : Nat)
  | rangeToInclusive (stop : Nat)
deriving DecidableEq

/-- The index argument shapes enumerated by the claim: a single position, or
one of five range shapes — closed-open `a..b`, open-ended-low `..b`,
open-ended-high `a..`, full `..`, inclusive-high `..=b`. -/
def isClaimedShape : IndexArg → Bool
  | .position _ => true
  | .range _ _ => true
  | .rangeTo _ => true
  | .rangeFrom _ => true
  | .rangeFull => true
  | .rangeInclusive _ _ => false
  | .rangeToInclusive _ => true

theorem lt_length_of_get_eq_some {c : SoAVec α β} {i : Nat} {r : α × β}
    (h : get c i = some r) : i < c.x.length ∧ i < c.name.length := by
  unfold get at h
  cases hx : c.x[i]? <;> cases hn : c.name[i]? <;> simp [hx, hn] at h
  exact ⟨(List.getElem?_eq_some_iff.mp hx).1, (List.getElem?_eq_some_iff.mp hn).1⟩

theorem length_filterMap_getElem?_eq {l₁ : List γ} {l₂ : List δ}
    (h : l₁.length = l₂.length) (idx : List Nat) :
    (idx.filterMap (fun i => l₁[i]?)).length
      = (idx.filterMap (fun i => l₂[i]?)).length := by
  induction idx with
  | nil => rfl
  | cons i t ih =>
    simp only [List.filterMap_cons]
    by_cases hi : i < l₁.length
    · rw [List.getElem?_eq_getElem hi, List.getElem?_eq_getElem (h ▸ hi)]
      simpa using ih
    · rw [List.getElem?_eq_none (Nat.le_of_not_lt hi),
        List.getElem?_eq_none (h ▸ Nat.le_of_not_lt hi)]
      exact ih

theorem length_swapRemoveList {l : List γ} (h : l ≠ []) (i : Nat) :
    (swapRemoveList l i).length = l.length - 1 := by
  unfold swapRemoveList
  cases hl : l.getLast? with
  | none =>
    exact absurd (List.getLast?_isSome.mpr h) (by simp [hl])
  | some a => simp

/-- Every single operation preserves the parallel-array invariant: it either
updates every field array together or leaves the container untouched. -/
theorem step_sync {c : SoAVec α β} {o : Op α β} (hc : c.sync) (ho : opSync o) :
    (step c o).sync := by
  simp only [sync] at hc
  cases o with
  | push r =>
    simp only [step, push, sync, List.length_append, List.length_cons,
      List.length_nil]
    omega
  | pop =>
    simp only [step, pop]
    cases c.x.getLast? <;> cases c.name.getLast? <;>
      (simp only [sync, List.length_dropLast]; omega)
  | insert i r =>
    simp only [step, insert]
    split
    · rename_i h
      simp only [len] at h
      simp only [sync]
      rw [List.length_insertIdx _ _ h, List.length_insertIdx _ _ (hc ▸ h), hc]
    · exact hc
  | remove i =>
    simp only [step, remove]
    cases hg : get c i with
    | none => exact hc
    | some r =>
      obtain ⟨h₁, h₂⟩ := lt_length_of_get_eq_some hg
      simp only [sync, List.length_eraseIdx_of_lt h₁, List.length_eraseIdx_of_lt h₂]
      omega
  | swap_remove i =>
    simp only [step, swap_remove]
    cases hg : get c i with
    | none => exact hc
    | some r =>
      obtain ⟨h₁, h₂⟩ := lt_length_of_get_eq_some hg
      simp only [sync,
        length_swapRemoveList (List.length_pos.mp (Nat.lt_of_le_of_lt (Nat.zero_le i) h₁)) i,
        length_swapRemoveList (List.length_pos.mp (Nat.lt_of_le_of_lt (Nat.zero_le i) h₂)) i]
      omega
  | truncate n =>
    simp only [step, truncate, sync, List.length_take]
    omega
  | clear => simp [step, clear, sync]
  | append o =>
    simp only [opSync, sync] at ho
    simp only [step, append, sync, List.length_append]
    omega
  | split_off i =>
    simp only [step, split_off]
    split
    · simp only [sync, List.length_take]
      omega
    · exact hc
  | replace i r =>
    simp only [step, replace]
    cases hg : get c i with
    | none => exact hc
    | some old =>
      simp only [sync, List.length_set]
      exact hc
  | apply_index idx =>
    exact length_filterMap_getElem?_eq hc idx

theorem run_sync {c : SoAVec α β} {ops : List (Op α β)} (hc : c.sync)
    (hops : ∀ o ∈ ops, opSync o) : (run c ops).sync := by
  induction ops generalizing c with
  | nil => simpa [run]
  | cons o t ih =>
    simp only [run, List.foldl_cons]
    exact ih (step_sync hc (hops o (List.mem_cons_self o t)))
      (fun o' ho' => hops o' (List.mem_cons_of_mem _ ho'))

theorem length_contents {c : SoAVec α β} (hs : c.sync) :
    (contents c).length = len c := by
  simp only [contents, List.length_zip, len, sync] at hs ⊢
  omega

theorem get_eq_getElem?_contents {c : SoAVec α β} (hs : c.sync) (i : Nat) :
    get c i = (contents c)[i]? := by
  unfold get contents
  by_cases hi : i < c.x.length
  · have hi' : i < c.name.length := hs ▸ hi
    have hz : i < (c.x.zip c.name).length := by
      simp only [List.length_zip]
      omega
    rw [List.getElem?_eq_getElem hi, List.getElem?_eq_getElem hi',
      List.getElem?_eq_getElem hz, List.getElem_zip]
  · have hi' : ¬ i < c.name.length := by
      simp only [sync] at hs
      omega
    have hz : (c.x.zip c.name).length ≤ i := by
      simp only [List.length_zip]
      omega
    rw [List.getElem?_eq_none (Nat.le_of_not_lt hi),
      List.getElem?_eq_none (Nat.le_of_not_lt hi'), List.getElem?_eq_none hz]

theorem getD_contents {c : SoAVec α β} [Inhabited α] [Inhabited β] (hs : c.sync)
    (i : Nat) : (contents c).getD i default = proxyAt c i := by
  rw [List.getD_eq_getElem?_getD, ← get_eq_getElem?_contents hs]
  unfold get proxyAt
  by_cases hi : i < c.x.length
  · have hi' : i < c.name.length := hs ▸ hi
    rw [List.getElem?_eq_getElem hi, List.getElem?_eq_getElem hi',
      List.getD_eq_getElem?_getD, List.getD_eq_getElem?_getD,
      List.getElem?_eq_getElem hi, List.getElem?_eq_getElem hi']
    rfl
  · have hi' : ¬ i < c.name.length := by
      simp only [sync] at hs
      omega
    rw [List.getElem?_eq_none (Nat.le_of_not_lt hi),
      List.getD_eq_getElem?_getD, List.getD_eq_getElem?_getD,
      List.getElem?_eq_none (Nat.le_of_not_lt hi),
      List.getElem?_eq_none (Nat.le_of_not_lt hi')]
    rfl

theorem contents_apply_index {c : SoAVec α β} (hs : c.sync) (idx : List Nat) :
    contents (apply_index idx c) = idx.filterMap (fun i => (contents c)[i]?) := by
  unfold apply_index
  show  (idx.filterMap (fun i => c.x[i]?)).zip (idx.filterMap (fun i => c.name[i]?))
      = idx.filterMap (fun i => (contents c)[i]?)
  induction idx with
  | nil => rfl
  | cons i t ih =>
    have hbridge : (contents c)[i]? = get c i := (get_eq_getElem?_contents hs i).symm
    simp only [List.filterMap_cons]
    by_cases hi : i < c.x.length
    · have hi' : i < c.name.length := hs ▸ hi
      rw [List.getElem?_eq_getElem hi, List.getElem?_eq_getElem hi', hbridge]
      unfold get
      rw [List.getElem?_eq_getElem hi, List.getElem?_eq_getElem hi']
      simp only [List.zip_cons_cons, ih]
    · have hi' : ¬ i < c.name.length := by
        simp only [sync] at hs
        omega
      rw [List.getElem?_eq_none (Nat.le_of_not_lt hi),
        List.getElem?_eq_none (Nat.le_of_not_lt hi'), hbridge]
      unfold get
      rw [List.getElem?_eq_none (Nat.le_of_not_lt hi)]
      exact ih

theorem filterMap_getElem?_eq_map_getD {l : List γ} [Inhabited γ] {idx : List Nat}
    (h : ∀ i ∈ idx, i < l.length) :
    idx.filterMap (fun i => l[i]?) = idx.map (fun i => l.getD i default) := by
  induction idx with
  | nil => rfl
  | cons i t ih =>
    have hi := h i (List.mem_cons_self i t)
    simp only [List.filterMap_cons, List.map_cons,
      List.getElem?_eq_getElem hi, List.getD_eq_getElem?_getD,
      ih (fun j hj => h j (List.mem_cons_of_mem _ hj))]
    rfl

theorem map_getD_range {l : List γ} [Inhabited γ] :
    (List.range l.length).map (fun i => l.getD i default) = l := by
  apply List.ext_getElem
  · simp
  · intro i h₁ h₂
    simp only [List.getElem_map, List.getElem_range, List.getD_eq_getElem?_getD,
      List.getElem?_eq_getElem h₂]
    rfl

theorem leOfCmp_eq_true_iff {cmp : γ → γ → Ordering} {a b : γ} :
    leOfCmp cmp a b = true ↔ cmp a b ≠ Ordering.gt := by
  unfold leOfCmp
  cases cmp a b <;> simp

theorem pair_sublist_range {i j n : Nat} (hij : i < j) (hj : j < n) :
    ([i, j]).Sublist (List.range n) := by
  have h1 : ([i]).Sublist (List.range j) :=
    List.singleton_sublist.mpr (List.mem_range.mpr hij)
  have h3 : ([i, j]).Sublist (List.range j ++ [j]) := by
    simpa using List.Sublist.append h1 (List.Sublist.refl [j])
  have h3' : ([i, j]).Sublist (List.range (j + 1)) := by
    rw [List.range_succ]
    exact h3
  exact h3'.trans (List.range_sublist.mpr (by omega))

theorem contents_apply_index_of_perm [Inhabited α] [Inhabited β]
    {c : SoAVec α β} (hs : c.sync) {perm : List Nat}
    (hp : ∀ i ∈ perm, i < len c) :
    contents (apply_index perm c) = perm.map (fun i => proxyAt c i) := by
  rw [contents_apply_index hs,
    filterMap_getElem?_eq_map_getD
      (fun i hi => by rw [length_contents hs]; exact hp i hi)]
  simp only [getD_contents hs]

theorem mem_sort_perm_lt {n : Nat} {le : Nat → Nat → Bool} :
    ∀ i ∈ (List.range n).mergeSort le, i < n := fun _ hi =>
  List.mem_range.mp (List.mem_mergeSort.mp hi)

theorem contents_sort_by [Inhabited α] [Inhabited β]
    {cmp : α × β → α × β → Ordering} {c : SoAVec α β} (hs : c.sync) :
    contents (sort_by cmp c)
      = ((List.range (len c)).mergeSort
          (fun j k => !(is_less cmp (proxyAt c k) (proxyAt c j)))).map
            (fun i => proxyAt c i) := by
  unfold sort_by
  exact contents_apply_index_of_perm hs mem_sort_perm_lt

theorem contents_sort_by_key [Inhabited α] [Inhabited β] {κ : Type} [Ord κ]
    {f : α × β → κ} {c : SoAVec α β} (hs : c.sync) :
    contents (sort_by_key f c)
      = ((List.range (len c)).mergeSort
          (fun j k => !(is_less compare (f (proxyAt c k)) (f (proxyAt c j))))).map
            (fun i => proxyAt c i) := by
  unfold sort_by_key
  exact contents_apply_index_of_perm hs mem_sort_perm_lt

theorem sort_by_key_eq_sort_by [Inhabited α] [Inhabited β] {κ : Type} [Ord κ]
    (f : α × β → κ) (c : SoAVec α β) :
    sort_by_key f c = sort_by (fun a b => compare (f a) (f b)) c := rfl

theorem not_is_less_eq_leOfCmp_of_dual {cmp : γ → γ → Ordering}
    (hdual : ∀ a b : γ, cmp a b = (cmp b a).swap) (a b : γ) :
    (!(is_less cmp b a)) = leOfCmp cmp a b := by
  unfold is_less leOfCmp
  have h := hdual a b
  cases hba : cmp b a <;> rw [hba] at h <;> rw [h] <;> rfl

theorem leOfCmp_total_of_dual {cmp : γ → γ → Ordering}
    (hdual : ∀ a b : γ, cmp a b = (cmp b a).swap) (a b : γ) :
    (leOfCmp cmp a b || leOfCmp cmp b a) = true := by
  unfold leOfCmp
  have h := hdual a b
  cases hba : cmp b a <;> rw [hba] at h <;> rw [h] <;> rfl

/-- Under Rust's duality contract, the `is_less`-derived merge relation on
indices coincides with the acceptance relation `accLe`. -/
theorem merge_rel_eq_accLe_of_dual [Inhabited α] [Inhabited β]
    {cmp : α × β → α × β → Ordering} {c : SoAVec α β}
    (hdual : ∀ a b : α × β, cmp a b = (cmp b a).swap) :
    (fun j k => !(is_less cmp (proxyAt c k) (proxyAt c j))) = accLe cmp c := by
  funext j k
  exact not_is_less_eq_leOfCmp_of_dual hdual _ _

/-- Stability of `sort_by` for comparators satisfying Rust's total-order
contract (duality plus transitivity of the acceptance relation). -/
theorem sort_by_stable_of_dual [Inhabited α] [Inhabited β]
    {cmp : α × β → α × β → Ordering} {c : SoAVec α β} (hs : c.sync)
    (hdual : ∀ a b : α × β, cmp a b = (cmp b a).swap)
    (htrans : ∀ a b d : α × β, leOfCmp cmp a b = true →
      leOfCmp cmp b d = true → leOfCmp cmp a d = true)
    {i j : Nat} (hij : i < j) (hj : j < len c)
    (heq : cmp (proxyAt c i) (proxyAt c j) = Ordering.eq) :
    ([proxyAt c i, proxyAt c j]).Sublist (contents (sort_by cmp c)) := by
  rw [contents_sort_by hs, merge_rel_eq_accLe_of_dual hdual]
  have hle : accLe cmp c i j = true := by
    unfold accLe leOfCmp
    rw [heq]
  have htrans' : ∀ a b d : Nat, accLe cmp c a b = true →
      accLe cmp c b d = true → accLe cmp c a d = true :=
    fun a b d h1 h2 => htrans _ _ _ h1 h2
  have htotal' : ∀ a b : Nat, (accLe cmp c a b || accLe cmp c b a) = true :=
    fun a b => leOfCmp_total_of_dual hdual _ _
  have h2 := List.pair_sublist_mergeSort htrans' htotal' hle
    (pair_sublist_range hij hj)
  simpa using h2.map (fun i => proxyAt c i)

theorem map_proxyAt_range [Inhabited α] [Inhabited β] {c : SoAVec α β}
    (hs : c.sync) :
    (List.range (len c)).map (fun i => proxyAt c i) = contents c := by
  have h3 := map_getD_range (l := contents c)
  rw [length_contents hs] at h3
  rw [← h3]
  simp only [getD_contents hs]

theorem getElem?_zip_of_some {l₁ : List γ} {l₂ : List δ} {i : Nat} {a : γ}
    {g : δ} (h₁ : l₁[i]? = some a) (h₂ : l₂[i]? = some g) :
    (l₁.zip l₂)[i]? = some (a, g) := by
  obtain ⟨hlt₁, he₁⟩ := List.getElem?_eq_some_iff.mp h₁
  obtain ⟨hlt₂, he₂⟩ := List.getElem?_eq_some_iff.mp h₂
  have hz : i < (l₁.zip l₂).length := by
    simp only [List.length_zip]
    omega
  rw [List.getElem?_eq_getElem hz, List.getElem_zip, he₁, he₂]

end SoAVec

open SoAVec

/-- C1: for every sequence of container operations (push, pop, insert, remove,
swap_remove, truncate, clear, append, split_off, replace, permutation-apply),
after each operation completes — whether it succeeds or rejects early — every
field array of the container has the same length as every other field array;
an operation that would desynchronize lengths either updates every field
array together or fails before mutating any of them.  Containers handed to
`append` are themselves live containers and hence length-consistent
(`opSync`), as Rust's type system guarantees. -/
theorem claim_C1_parallel_array_lengths (c : SoAVec α β) (ops : List (Op α β))
    (n : Nat) (hc : c.sync) (hops : ∀ o ∈ ops, opSync o) :
    (run c (ops.take n)).sync :=
  run_sync hc (fun o ho => hops o ((List.take_sublist n ops).subset ho))

/-- C1 witness: the invariant after the first seven of a concrete sequence of
eleven operations covering every constructor. -/
theorem claim_C1_witness :
    exVec.sync ∧ (∀ o ∈ exOps, opSync o) ∧ (run exVec (exOps.take 7)).sync :=
  ⟨by decide, by decide,
    claim_C1_parallel_array_lengths exVec exOps 7 (by decide) (by decide)⟩

/-- C5: on a zero-length container the lookup-style queries pop, first and
last return absent (`none`) rather than failing; in particular `last` returns
`none` even though its index argument is computed as `len() - 1` with
saturating subtraction. -/
theorem claim_C5_empty_queries_absent (c : SoAVec α β) (h : len c = 0) :
    (pop c).1 = none ∧ first c = none ∧ last c = none := by
  have hx : c.x = [] := List.length_eq_zero.mp h
  refine ⟨?_, ?_, ?_⟩
  · unfold pop
    rw [hx]
    cases c.name.getLast? <;> rfl
  · unfold first SoAVec.get
    rw [hx]
    cases c.name[0]? <;> rfl
  · unfold last
    rw [h]
    unfold SoAVec.get
    rw [hx]
    cases c.name[0]? <;> rfl

/-- C5 witness: the empty container at both field types `Bool`. -/
theorem claim_C5_witness :
    len emptyVec = 0
      ∧ ((pop emptyVec).1 = none ∧ first emptyVec = none ∧ last emptyVec = none) :=
  ⟨by decide, claim_C5_empty_queries_absent emptyVec (by decide)⟩

/-- C6: pushing a record and then popping yields exactly that record and
returns the container to its prior state, so the length after the pop equals
the length before the push. -/
theorem claim_C6_push_pop_round_trip (c : SoAVec α β) (r : α × β) :
    pop (push r c) = (some r, c) ∧ len (pop (push r c)).2 = len c := by
  have h : pop (push r c) = (some r, c) := by
    unfold pop push
    simp only [List.getLast?_concat, List.dropLast_concat]
  exact ⟨h, by rw [h]⟩

/-- C4: on a container of length N, `get N` returns absent, `get (N-1)`
returns the last element when N is positive, the panicking `index N` signals
out-of-range, and every in-bounds position resolves through `get` to the
record at that position. -/
theorem claim_C4_indexing_boundary (c : SoAVec α β) (N : Nat)
    (hs : c.sync) (hN : len c = N) :
    get c N = none
      ∧ (0 < N → get c (N - 1) = (contents c).getLast? ∧ (get c (N - 1)).isSome)
      ∧ index c N = Except.error "index out of bounds"
      ∧ (∀ i, i < N → get c i = (contents c)[i]? ∧ (get c i).isSome) := by
  have hlen : (contents c).length = N := hN ▸ length_contents hs
  have hnone : get c N = none := by
    rw [get_eq_getElem?_contents hs, List.getElem?_eq_none (Nat.le_of_eq hlen)]
  have hin : ∀ i, i < N → get c i = (contents c)[i]? ∧ (get c i).isSome := by
    intro i hi
    have hi' : i < (contents c).length := hlen ▸ hi
    refine ⟨get_eq_getElem?_contents hs i, ?_⟩
    rw [get_eq_getElem?_contents hs i, List.getElem?_eq_getElem hi']
    rfl
  refine ⟨hnone, ?_, ?_, hin⟩
  · intro h0
    refine ⟨?_, (hin (N - 1) (by omega)).2⟩
    rw [get_eq_getElem?_contents hs, List.getLast?_eq_getElem?, hlen]
  · unfold index
    rw [hnone]

/-- C4 witness: a concrete three-element container. -/
theorem claim_C4_witness :
    c4Vec.sync ∧ len c4Vec = 3
      ∧ (get c4Vec 3 = none
          ∧ (0 < 3 → get c4Vec (3 - 1) = (contents c4Vec).getLast?
              ∧ (get c4Vec (3 - 1)).isSome)
          ∧ index c4Vec 3 = Except.error "index out of bounds"
          ∧ (∀ i, i < 3 → get c4Vec i = (contents c4Vec)[i]? ∧ (get c4Vec i).isSome)) :=
  ⟨by decide, by decide, claim_C4_indexing_boundary c4Vec 3 (by decide) (by decide)⟩

/-- C2 (amended): after `sort_by cmp` the contents are a permutation of the
contents before the call (nothing copied or dropped); and whenever the
comparator satisfies Rust's total-order contract — duality
`cmp a b = (cmp b a).reverse` together with transitivity of the acceptance
relation `le a b := cmp a b ≠ Greater` — every pair of adjacent records
additionally satisfies `cmp a b ≠ Greater`. -/
theorem claim_C2_sort_by_sorted_and_perm [Inhabited α] [Inhabited β]
    (cmp : α × β → α × β → Ordering) (c : SoAVec α β) (hs : c.sync) :
    ((∀ a b : α × β, cmp a b = (cmp b a).swap) →
      (∀ a b d : α × β, leOfCmp cmp a b = true → leOfCmp cmp b d = true →
        leOfCmp cmp a d = true) →
      (contents (sort_by cmp c)).Pairwise (fun a b => cmp a b ≠ Ordering.gt))
      ∧ (contents (sort_by cmp c)).Perm (contents c) := by
  constructor
  · intro hdual htrans
    rw [contents_sort_by hs, merge_rel_eq_accLe_of_dual hdual]
    have htrans' : ∀ a b d : Nat, accLe cmp c a b = true →
        accLe cmp c b d = true → accLe cmp c a d = true :=
      fun a b d h1 h2 => htrans _ _ _ h1 h2
    have htotal' : ∀ a b : Nat, (accLe cmp c a b || accLe cmp c b a) = true :=
      fun a b => leOfCmp_total_of_dual hdual _ _
    have hsorted := List.sorted_mergeSort htrans' htotal' (List.range (len c))
    exact List.Pairwise.map _ (fun a b h => leOfCmp_eq_true_iff.mp h) hsorted
  · rw [contents_sort_by hs, ← map_proxyAt_range hs]
    exact (List.mergeSort_perm (List.range (len c)) _).map _

/-- C2 counterexample: the constant-`Greater` comparator never answers
`Less`, so the `is_less`-driven stable sort leaves the container unchanged
(matching the real code) and the two adjacent records compare `Greater`;
the unconditional adjacent-order part of the claim is false. -/
theorem claim_C2_counterexample :
    ¬ (contents (sort_by cmpAlwaysGt exVec)).Pairwise
        (fun a b => cmpAlwaysGt a b ≠ Ordering.gt) := by
  have h : contents (sort_by cmpAlwaysGt exVec) = [(true, false), (false, true)] := by
    have hr : List.range 2 = [0, 1] := rfl
    have hgl : (Ordering.gt == Ordering.lt) = false := rfl
    simp [sort_by, apply_index, contents, exVec, hr, hgl, List.mergeSort,
      List.splitInTwo, List.merge, is_less, cmpAlwaysGt, proxyAt, len]
  rw [h]
  decide

/-- C2 witness: the lawful first-field comparator on a concrete container. -/
theorem claim_C2_witness :
    exVec.sync
      ∧ (contents (sort_by cmpFst exVec)).Pairwise
          (fun a b => cmpFst a b ≠ Ordering.gt)
      ∧ (contents (sort_by cmpFst exVec)).Perm (contents exVec) :=
  ⟨by decide,
    (claim_C2_sort_by_sorted_and_perm cmpFst exVec (by decide)).1
      (by decide) (by decide),
    (claim_C2_sort_by_sorted_and_perm cmpFst exVec (by decide)).2⟩

/-- C8: `sort_by` and `sort_by_key` coincide with the two-phase reference
algorithm of the spec: stably sort the index sequence `0..N` with the
comparator (resp. key) evaluated on the records reached through `index()`
— never raw field access — then rearrange the whole contents by one
application of the resulting permutation. -/
theorem claim_C8_sort_matches_reference [Inhabited α] [Inhabited β]
    {κ : Type} [Ord κ] (cmp : α × β → α × β → Ordering) (f : α × β → κ)
    (c : SoAVec α β) (hs : c.sync) :
    contents (sort_by cmp c) = referenceSortBy cmp (contents c)
      ∧ contents (sort_by_key f c) = referenceSortByKey f (contents c) := by
  constructor
  · rw [contents_sort_by hs]
    unfold referenceSortBy
    rw [length_contents hs]
    simp only [getD_contents hs]
  · rw [contents_sort_by_key hs]
    unfold referenceSortByKey
    rw [length_contents hs]
    simp only [getD_contents hs]

/-- C8 witness: the reference equivalence at a concrete container, a concrete
comparator and a concrete key function. -/
theorem claim_C8_witness :
    exVec.sync
      ∧ contents (sort_by cmpFst exVec) = referenceSortBy cmpFst (contents exVec)
      ∧ contents (sort_by_key Prod.fst exVec)
          = referenceSortByKey Prod.fst (contents exVec) :=
  ⟨by decide,
    (claim_C8_sort_matches_reference cmpFst Prod.fst exVec (by decide)).1,
    (claim_C8_sort_matches_reference cmpFst Prod.fst exVec (by decide)).2⟩

/-- C9 (amended): for every comparator satisfying Rust's total-order
contract — duality `cmp a b = (cmp b a).reverse` and transitivity of the
acceptance relation `le a b := cmp a b ≠ Greater` — `sort_by` is stable, and
likewise `sort_by_key` for every key function whose `Ord` instance satisfies
the same contract: records at positions `i < j` that compare equal keep
their relative order, because the index permutation is computed with a
stable sort of `0..N` before being applied. -/
theorem claim_C9_sort_by_stable [Inhabited α] [Inhabited β] {κ : Type} [Ord κ]
    (cmp : α × β → α × β → Ordering) (f : α × β → κ) (c : SoAVec α β)
    (hs : c.sync) (i j : Nat) (hij : i < j) (hj : j < len c) :
    ((∀ a b : α × β, cmp a b = (cmp b a).swap) →
      (∀ a b d : α × β, leOfCmp cmp a b = true → leOfCmp cmp b d = true →
        leOfCmp cmp a d = true) →
      cmp (proxyAt c i) (proxyAt c j) = Ordering.eq →
      ([proxyAt c i, proxyAt c j]).Sublist (contents (sort_by cmp c)))
    ∧ ((∀ a b : κ, compare a b = (compare b a).swap) →
      (∀ a b d : κ, leOfCmp compare a b = true → leOfCmp compare b d = true →
        leOfCmp compare a d = true) →
      compare (f (proxyAt c i)) (f (proxyAt c j)) = Ordering.eq →
      ([proxyAt c i, proxyAt c j]).Sublist (contents (sort_by_key f c))) := by
  constructor
  · intro hdual htrans heq
    exact sort_by_stable_of_dual hs hdual htrans hij hj heq
  · intro hdual htrans heq
    rw [sort_by_key_eq_sort_by]
    exact sort_by_stable_of_dual hs
      (fun a b => hdual (f a) (f b))
      (fun a b d h1 h2 => htrans _ _ _ h1 h2)
      hij hj heq

/-- C9 counterexample: a comparator violating duality — the pair compares
`Equal` in the original orientation but `Less` reversed — makes the
`is_less`-driven stable sort (and the real code, whose merge consults
`is_less(right, left)`) swap two records that compare equal, so "for every
comparator" is too strong. -/
theorem claim_C9_counterexample :
    cmpAsym (proxyAt c9Vec 0) (proxyAt c9Vec 1) = Ordering.eq
      ∧ contents (sort_by cmpAsym c9Vec) = [(true, true), (false, false)]
      ∧ ¬ ([proxyAt c9Vec 0, proxyAt c9Vec 1]).Sublist
            (contents (sort_by cmpAsym c9Vec)) := by
  have h : contents (sort_by cmpAsym c9Vec)
      = [(true, true), (false, false)] := by
    have hr : List.range 2 = [0, 1] := rfl
    have hll : (Ordering.lt == Ordering.lt) = true := rfl
    have hel : (Ordering.eq == Ordering.lt) = false := rfl
    simp [sort_by, apply_index, contents, c9Vec, hr, hll, hel, List.mergeSort,
      List.splitInTwo, List.merge, is_less, cmpAsym, proxyAt, len]
  refine ⟨by decide, h, ?_⟩
  rw [h]
  decide

/-- C9 witness: two records with equal first fields keep their order under
the lawful first-field comparator, and under key-sorting by the first
field. -/
theorem claim_C9_witness :
    c9W.sync ∧ cmpFst (proxyAt c9W 0) (proxyAt c9W 1) = Ordering.eq
      ∧ ([proxyAt c9W 0, proxyAt c9W 1]).Sublist (contents (sort_by cmpFst c9W))
      ∧ compare (Prod.fst (proxyAt c9W 0)) (Prod.fst (proxyAt c9W 1)) = Ordering.eq
      ∧ ([proxyAt c9W 0, proxyAt c9W 1]).Sublist
          (contents (sort_by_key Prod.fst c9W)) :=
  ⟨by decide, by decide,
    (claim_C9_sort_by_stable cmpFst Prod.fst c9W (by decide) 0 1
        (by decide) (by decide)).1 (by decide) (by decide) (by decide),
    by decide,
    (claim_C9_sort_by_stable cmpFst Prod.fst c9W (by decide) 0 1
        (by decide) (by decide)).2 (by decide) (by decide) (by decide)⟩

/-- C7: zipping the selected fields of a length-N container with an external
sequence of length M < N yields exactly M tuples — the iterator stops at the
first exhausted source. -/
theorem claim_C7_zip_stops_at_shortest (c : SoAVec α β) (e : List γ)
    (N M : Nat) (hx : c.x.length = N) (hn : c.name.length = N)
    (he : e.length = M) (hM : M < N) :
    (soa_zip_x_name_e c e).length = M := by
  simp only [soa_zip_x_name_e, List.length_map, List.length_zip, hx, hn, he]
  omega

/-- C7 witness: a three-element container zipped with a two-element external
sequence yields two tuples. -/
theorem claim_C7_witness :
    c4Vec.x.length = 3 ∧ c4Vec.name.length = 3
      ∧ ([0, 1] : List Nat).length = 2 ∧ 2 < 3
      ∧ (soa_zip_x_name_e c4Vec ([0, 1] : List Nat)).length = 2 :=
  ⟨by decide, by decide, by decide, by decide,
    claim_C7_zip_stops_at_shortest c4Vec ([0, 1] : List Nat) 3 2
      (by decide) (by decide) (by decide) (by decide)⟩

/-- C10: the i-th tuple yielded by the zip over fields `[x, name]` and
external iterators `e₁, e₂` is the flat tuple of the i-th element of each
source, in exactly the caller's left-to-right order: selected fields first,
in listed order, then the external iterators in the order given (the
container expression is bound once, mirroring the `let this = $self`
binding of the `soa_zip` expansion). -/
theorem claim_C10_zip_flat_order (c : SoAVec α β) (e₁ : List γ) (e₂ : List δ)
    (i : Nat) (a : α) (b : β) (g : γ) (d : δ)
    (ha : c.x[i]? = some a) (hb : c.name[i]? = some b)
    (hg : e₁[i]? = some g) (hd : e₂[i]? = some d) :
    (soa_zip_x_name_ee c e₁ e₂)[i]? = some (a, b, g, d) := by
  unfold soa_zip_x_name_ee
  rw [List.getElem?_map,
    getElem?_zip_of_some (getElem?_zip_of_some (getElem?_zip_of_some ha hb) hg) hd]
  rfl

/-- C10 witness: the second tuple of a concrete zip combines the second
element of every source in caller order. -/
theorem claim_C10_witness :
    c4Vec.x[1]? = some false ∧ c4Vec.name[1]? = some true
      ∧ ([10, 20, 30] : List Nat)[1]? = some 20
      ∧ (["a", "b"] : List String)[1]? = some "b"
      ∧ (soa_zip_x_name_ee c4Vec ([10, 20, 30] : List Nat)
          (["a", "b"] : List String))[1]? = some (false, true, 20, "b") :=
  ⟨by decide, by decide, by decide, by decide,
    claim_C10_zip_flat_order c4Vec _ _ 1 false true 20 "b"
      (by decide) (by decide) (by decide) (by decide)⟩

/-- C3 counterexample: the bounded inclusive range `a..=b`
(`RangeInclusive<usize>`) is accepted by the sealed indexing interface but is
not among the claim's five range shapes, so "exactly five" is false. -/
theorem claim_C3_counterexample :
    isClaimedShape (IndexArg.rangeInclusive 0 1) = false := rfl

/-- C3 (amended): the indexing engine accepts exactly a single position or
one of six standard range shapes: closed-open `a..b`, open-ended-low `..b`,
open-ended-high `a..`, full `..`, inclusive on both ends `a..=b`, and
inclusive-high `..=b`; no other index argument type is accepted. -/
theorem claim_C3_index_arg_shapes : ∀ arg : IndexArg,
    (∃ i, arg = IndexArg.position i)
      ∨ (∃ a b, arg = IndexArg.range a b)
      ∨ (∃ b, arg = IndexArg.rangeTo b)
      ∨ (∃ a, arg = IndexArg.rangeFrom a)
      ∨ arg = IndexArg.rangeFull
      ∨ (∃ a b, arg = IndexArg.rangeInclusive a b)
      ∨ (∃ b, arg = IndexArg.rangeToInclusive b) := by
  intro arg
  cases arg <;> simp

end Soa
